import Mathlib

/-!
Verification of the diff-classifier core of the `vscode-branch-diff` extension.

The definitions below are a shallow embedding of the TypeScript source:

- `parseUnifiedDiff` / `processLines` embed `GitService.parseUnifiedDiff`
  (src/branchDiffProvider.ts, lines 544-648): the scan over the lines of a
  unified diff that classifies new-file line ranges as added / modified /
  deleted.
- `parseHunkHeader` embeds the hunk-header regular expression
  `^@@ -\d+(?:,\d+)? \+(\d+)(?:,\d+)? @@` together with
  `parseInt(hunkMatch[1], 10)`.
- `splitNl` embeds `diffOutput.split('\n')` (split on every newline; an empty
  string yields one empty field).
- `GutterState` / `setMergeBase` / `updateDecorations` embed the per-file
  classification cache of `GutterDecorationProvider`
  (src/gutterDecorationProvider.ts): the `Map`-backed cache, the merge-base
  holder and the check-cache-or-fetch step of `updateDecorations`.
- `AsyncState` / `beginUpdate` / `finishUpdate` / `setMergeBaseAsync` embed the
  same cache code with the `await` inside `updateDecorations` made explicit as
  a suspension point, following the JavaScript event-loop semantics: the code
  before the `await` and the code after it run atomically, but another event
  (such as a merge-base change) may run in between.
-/

/-- `LineChangeType` from gitService.ts: `'added' | 'modified' | 'deleted'`. -/
inductive LineChangeType where
  | added
  | modified
  | deleted
  deriving DecidableEq, Repr

/-- `LineChange` from gitService.ts: a classified run of lines, with 1-based
inclusive `startLine`/`endLine` in new-file coordinates. -/
structure LineChange where
  type : LineChangeType
  startLine : Nat
  endLine : Nat
  deriving DecidableEq, Repr

/-- `line.startsWith(c)` for a one-character argument: true iff the first
character of the line is `c`. -/
def startsWithChar (l : String) (c : Char) : Bool :=
  match l.data with
  | [] => false
  | c2 :: _ => c2 == c

/-- Consume one expected character from a character stream; `none` if the
stream is empty or starts with a different character. -/
def expectChar (c : Char) : List Char → Option (List Char)
  | [] => none
  | x :: rest => if x = c then some rest else none

/-- `parseInt(digits, 10)` on a nonempty string of decimal digits. -/
def digitsToNat (ds : List Char) : Nat :=
  ds.foldl (fun a c => a * 10 + (c.toNat - 48)) 0

/-- The optional regex group `(?:,\d+)?`: consume a comma followed by at least
one digit if present, otherwise leave the stream unchanged.  (The regex can
only take this group when a comma and a digit follow, and must take it then,
so the deterministic scan coincides with the backtracking regex.) -/
def skipOptCommaDigits (cs : List Char) : List Char :=
  match cs with
  | ',' :: rest =>
    let spanned := rest.span Char.isDigit
    if spanned.1.isEmpty then cs else spanned.2
  | _ => cs

/-- The hunk-header match of parseUnifiedDiff:
`line.match(/^@@ -\d+(?:,\d+)? \+(\d+)(?:,\d+)? @@/)` followed by
`parseInt(hunkMatch[1], 10)`.  Returns the new-file start line on a match. -/
def parseHunkHeader (line : String) : Option Nat := do
  let r0 ← expectChar '@' line.data
  let r1 ← expectChar '@' r0
  let r2 ← expectChar ' ' r1
  let r3 ← expectChar '-' r2
  let old := r3.span Char.isDigit
  if old.1.isEmpty then none else do
  let r4 := skipOptCommaDigits old.2
  let r5 ← expectChar ' ' r4
  let r6 ← expectChar '+' r5
  let new := r6.span Char.isDigit
  if new.1.isEmpty then none else do
  let r7 := skipOptCommaDigits new.2
  let r8 ← expectChar ' ' r7
  let r9 ← expectChar '@' r8
  let _ ← expectChar '@' r9
  some (digitsToNat new.1)

/-- `diffOutput.split('\n')`, accumulator form: split a character stream at
every newline. -/
def splitNlAux (acc : List Char) : List Char → List String
  | [] => [String.mk acc.reverse]
  | c :: cs =>
    if c = '\n' then String.mk acc.reverse :: splitNlAux [] cs
    else splitNlAux (c :: acc) cs

/-- `diffOutput.split('\n')`: JavaScript string split on a plain one-character
separator.  `splitNl "" = [""]`. -/
def splitNl (s : String) : List String :=
  splitNlAux [] s.data

/-- The body of the `for` loop of `parseUnifiedDiff` (branchDiffProvider.ts
lines 550-645), as a recursion over the remaining lines.  The first argument
is the cursor `newLine` (0 = "no hunk context yet").  The inner `while` loops
that collect a contiguous removed run and the added run immediately following
it become `takeWhile`/`dropWhile`; the `i--` of the source corresponds to
recursing on exactly the lines after the collected runs.  In the source the
cursor advances by `addCount` in the modified and pure-addition branches and
is unchanged (`addCount = 0`) in the pure-deletion branch, so the single
recursive call advances by `addCount`. -/
def processLines : Nat → List String → List LineChange
  | _, [] => []
  | newLine, line :: rest =>
    match parseHunkHeader line with
    | some n => processLines n rest
    | none =>
      if newLine = 0 then
        processLines 0 rest
      else if hdash : startsWithChar line '-' = true then
        let rem := (line :: rest).takeWhile (fun l => startsWithChar l '-')
        let rest1 := (line :: rest).dropWhile (fun l => startsWithChar l '-')
        let add := rest1.takeWhile (fun l => startsWithChar l '+')
        let rest2 := rest1.dropWhile (fun l => startsWithChar l '+')
        let removeCount := rem.length
        let addCount := add.length
        (if removeCount > 0 ∧ addCount > 0 then
          let overlap := min removeCount addCount
          { type := LineChangeType.modified, startLine := newLine,
            endLine := newLine + overlap - 1 } ::
            (if addCount > overlap then
              [{ type := LineChangeType.added, startLine := newLine + overlap,
                 endLine := newLine + addCount - 1 }]
            else if removeCount > overlap then
              [{ type := LineChangeType.deleted, startLine := newLine + overlap,
                 endLine := newLine + overlap }]
            else [])
        else if addCount > 0 then
          [{ type := LineChangeType.added, startLine := newLine,
             endLine := newLine + addCount - 1 }]
        else
          [{ type := LineChangeType.deleted, startLine := newLine,
             endLine := newLine }]) ++
          processLines (newLine + addCount) rest2
      else if hplus : startsWithChar line '+' = true then
        let add := (line :: rest).takeWhile (fun l => startsWithChar l '+')
        let rest1 := (line :: rest).dropWhile (fun l => startsWithChar l '+')
        { type := LineChangeType.added, startLine := newLine,
          endLine := newLine + add.length - 1 } ::
          processLines (newLine + add.length) rest1
      else if startsWithChar line ' ' = true then
        processLines (newLine + 1) rest
      else
        processLines newLine rest
termination_by _ lines => lines.length
decreasing_by
  · simp
  · simp
  · simp only [List.dropWhile_cons, hdash, if_true, List.length_cons]
    have h1 := (@List.dropWhile_sublist String rest
      (fun l => startsWithChar l '-')).length_le
    have h2 := (@List.dropWhile_sublist String
      (rest.dropWhile (fun l => startsWithChar l '-'))
      (fun l => startsWithChar l '+')).length_le
    omega
  · simp only [List.dropWhile_cons, hplus, if_true, List.length_cons]
    have h1 := (@List.dropWhile_sublist String rest
      (fun l => startsWithChar l '+')).length_le
    omega
  · simp
  · simp

/-- `GitService.parseUnifiedDiff(diffOutput)`: split the diff text on
newlines and scan with the cursor initialized to 0. -/
def parseUnifiedDiff (diffOutput : String) : List LineChange :=
  processLines 0 (splitNl diffOutput)

/-- Spec-side instrument (not from the source): walk the lines of a diff
tracking the same cursor as `processLines` (a context or added line advances
it by one, a removed or unrecognized line leaves it, a hunk header resets it),
and check that every hunk header resets the cursor to a value at least the
cursor reached so far.  Well-formed unified diffs, whose hunks appear in
ascending new-file order and do not overlap, satisfy this. -/
def headersOrdered : Nat → List String → Bool
  | _, [] => true
  | cur, line :: rest =>
    match parseHunkHeader line with
    | some n => decide (cur ≤ n) && headersOrdered n rest
    | none =>
      if cur = 0 then headersOrdered 0 rest
      else if startsWithChar line '+' = true then headersOrdered (cur + 1) rest
      else if startsWithChar line ' ' = true then headersOrdered (cur + 1) rest
      else headersOrdered cur rest

/-- State of `GutterDecorationProvider` relevant to the classification cache:
`private cache = new Map<string, LineChange[]>()` (modelled as a lookup
function, `none` = key absent) and `private mergeBase: string = ''`. -/
structure GutterState where
  mergeBase : String
  cache : String → Option (List LineChange)

/-- A freshly constructed provider: empty merge base, empty cache. -/
def initialGutterState : GutterState :=
  { mergeBase := "", cache := fun _ => none }

/-- `setMergeBase(mergeBase)` (gutterDecorationProvider.ts lines 81-88):
if the held merge base differs, replace it, clear the cache and return true;
otherwise return false and leave the state untouched. -/
def setMergeBase (s : GutterState) (mergeBase : String) : Bool × GutterState :=
  if s.mergeBase ≠ mergeBase then
    (true, { mergeBase := mergeBase, cache := fun _ => none })
  else
    (false, s)

/-- The cache-consulting core of `updateDecorations(editor)`
(gutterDecorationProvider.ts lines 90-111), run to completion with no
interleaving.  `fetch` is the injected retrieval `getLineDiff(mergeBase,
path)` (which itself classifies via `parseUnifiedDiff`).  Mirrors
the guard `if (!this.mergeBase) return` and then:
`let lineChanges = this.cache.get(relativePath); if (!lineChanges) { ... }`.
In JavaScript `!lineChanges` is true only when the key is absent
(`undefined`); a stored empty array is truthy and is served as a hit.
The last component counts how many times `fetch` was invoked. -/
def updateDecorations (fetch : String → String → List LineChange)
    (s : GutterState) (path : String) :
    Option (List LineChange) × GutterState × Nat :=
  if s.mergeBase = "" then
    (none, s, 0)
  else
    match s.cache path with
    | some v => (some v, s, 0)
    | none =>
      let v := fetch s.mergeBase path
      (some v,
       { s with cache := fun x => if x = path then some v else s.cache x },
       1)

/-- State of the cache with the `await` of `updateDecorations` made explicit:
`pending` holds one entry per suspended `updateDecorations` body, recording
the path and the merge base that was already read when
`this.gitService.getLineDiff(this.mergeBase, relativePath)` started. -/
structure AsyncState where
  mergeBase : String
  cache : String → Option (List LineChange)
  pending : List (String × String)

/-- First atomic half of `updateDecorations` on a cache miss: the code up to
the `await`.  On a hit the whole body runs atomically and serves the cached
value; on a miss the current merge base is captured and the body suspends. -/
def beginUpdate (s : AsyncState) (path : String) :
    Option (List LineChange) × AsyncState :=
  if s.mergeBase = "" then
    (none, s)
  else
    match s.cache path with
    | some v => (some v, s)
    | none =>
      (none, { s with pending := (path, s.mergeBase) :: s.pending })

/-- Second atomic half of `updateDecorations`: the awaited
`getLineDiff(base, path)` resolves and the body resumes with
`this.cache.set(relativePath, lineChanges)` — unconditionally, with no check
that `base` is still the current merge base.  Returns the decorations the
resumed body renders. -/
def finishUpdate (fetch : String → String → List LineChange)
    (s : AsyncState) (path base : String) :
    Option (List LineChange) × AsyncState :=
  if (path, base) ∈ s.pending then
    let v := fetch base path
    (some v,
     { s with cache := fun x => if x = path then some v else s.cache x,
              pending := s.pending.erase (path, base) })
  else
    (none, s)

/-- `setMergeBase` acting on the interleaved-state model: it clears the cache
but cannot affect a retrieval already in flight. -/
def setMergeBaseAsync (s : AsyncState) (mergeBase : String) : Bool × AsyncState :=
  if s.mergeBase ≠ mergeBase then
    (true, { s with mergeBase := mergeBase, cache := fun _ => none })
  else
    (false, s)

/-- A concrete retrieval function under which results computed against
different bases are distinguishable: the classifier output of a one-line
diff whose position depends on the base. -/
def fetchByBase : String → String → List LineChange :=
  fun base _ =>
    if base = "A" then [{ type := LineChangeType.modified, startLine := 1, endLine := 1 }]
    else [{ type := LineChangeType.modified, startLine := 2, endLine := 2 }]

/-! ## Basic facts about the line-shape tests -/

theorem startsWithChar_ne {l : String} {c c2 : Char}
    (h : startsWithChar l c = true) (hne : c ≠ c2) :
    startsWithChar l c2 = false := by
  unfold startsWithChar at h ⊢
  cases hd : l.data with
  | nil => simp [hd] at h
  | cons x t =>
    simp only [hd, beq_iff_eq] at h
    simp [hd, h, hne]

theorem parseHunkHeader_eq_none {l : String} {c : Char}
    (h : startsWithChar l c = true) (hne : c ≠ '@') :
    parseHunkHeader l = none := by
  unfold startsWithChar at h
  unfold parseHunkHeader
  cases hd : l.data with
  | nil => simp [hd] at h
  | cons x t =>
    simp only [hd, beq_iff_eq] at h
    subst h
    simp [hd, expectChar, hne]

theorem takeWhile_dropWhile_append {α : Type} {p : α → Bool} {l1 l2 : List α}
    (h1 : ∀ x ∈ l1, p x = true)
    (h2 : ∀ x xs, l2 = x :: xs → p x = false) :
    (l1 ++ l2).takeWhile p = l1 ∧ (l1 ++ l2).dropWhile p = l2 := by
  induction l1 with
  | nil =>
    cases l2 with
    | nil => simp
    | cons x xs =>
      have hx := h2 x xs rfl
      simp [List.takeWhile_cons, List.dropWhile_cons, hx]
  | cons a t ih =>
    have ha := h1 a (List.mem_cons_self a t)
    have iht := ih (fun x hx => h1 x (List.mem_cons_of_mem a hx))
    simp [List.takeWhile_cons, List.dropWhile_cons, ha, iht.1, iht.2]

/-! ## Step lemmas: one iteration of the parseUnifiedDiff scan -/

theorem processLines_nil (n : Nat) : processLines n [] = [] := by
  rw [processLines.eq_def]

theorem processLines_header {line : String} {m : Nat}
    (h : parseHunkHeader line = some m) (n : Nat) (rest : List String) :
    processLines n (line :: rest) = processLines m rest := by
  rw [processLines.eq_def]
  simp [h]

theorem processLines_skip {line : String} (h : parseHunkHeader line = none)
    (rest : List String) :
    processLines 0 (line :: rest) = processLines 0 rest := by
  rw [processLines.eq_def]
  simp [h]

theorem processLines_space {line : String} (n : Nat) (hn : n ≠ 0)
    (hsp : startsWithChar line ' ' = true) (rest : List String) :
    processLines n (line :: rest) = processLines (n + 1) rest := by
  have hnone := parseHunkHeader_eq_none hsp (by decide)
  have hdash := startsWithChar_ne hsp (show (' ' : Char) ≠ '-' by decide)
  have hplus := startsWithChar_ne hsp (show (' ' : Char) ≠ '+' by decide)
  rw [processLines.eq_def]
  simp [hnone, hn, hdash, hplus, hsp]

theorem processLines_other {line : String} (n : Nat) (hn : n ≠ 0)
    (hnone : parseHunkHeader line = none)
    (hdash : startsWithChar line '-' = false)
    (hplus : startsWithChar line '+' = false)
    (hsp : startsWithChar line ' ' = false) (rest : List String) :
    processLines n (line :: rest) = processLines n rest := by
  rw [processLines.eq_def]
  simp [hnone, hn, hdash, hplus, hsp]

/-! ## Run lemmas: a removed run with its paired added run, a standalone
added run, skipped regions -/

theorem processLines_removedRun (n : Nat) (hn : n ≠ 0) (rem add rest : List String)
    (hrem : rem ≠ [])
    (hd : ∀ l ∈ rem, startsWithChar l '-' = true)
    (ha : ∀ l ∈ add, startsWithChar l '+' = true)
    (hnodash : add = [] → ∀ x xs, rest = x :: xs → startsWithChar x '-' = false)
    (hrest : ∀ x xs, rest = x :: xs → startsWithChar x '+' = false) :
    processLines n (rem ++ add ++ rest) =
      (if rem.length > 0 ∧ add.length > 0 then
        { type := LineChangeType.modified, startLine := n,
          endLine := n + min rem.length add.length - 1 } ::
          (if add.length > min rem.length add.length then
            [{ type := LineChangeType.added,
               startLine := n + min rem.length add.length,
               endLine := n + add.length - 1 }]
          else if rem.length > min rem.length add.length then
            [{ type := LineChangeType.deleted,
               startLine := n + min rem.length add.length,
               endLine := n + min rem.length add.length }]
          else [])
      else if add.length > 0 then
        [{ type := LineChangeType.added, startLine := n,
           endLine := n + add.length - 1 }]
      else
        [{ type := LineChangeType.deleted, startLine := n, endLine := n }]) ++
      processLines (n + add.length) rest := by
  match rem, hrem with
  | l0 :: rem0, _ =>
    have hd0 : startsWithChar l0 '-' = true := hd l0 (List.mem_cons_self l0 rem0)
    have hnone := parseHunkHeader_eq_none hd0 (by decide)
    have hblock : ∀ x xs, add ++ rest = x :: xs → startsWithChar x '-' = false := by
      intro x xs hx
      cases add with
      | nil => exact hnodash rfl x xs (by simpa using hx)
      | cons a0 t =>
        have hxa : a0 = x := by simpa using congrArg (fun l => l.head?) hx
        subst hxa
        exact @startsWithChar_ne a0 '+' '-' (ha a0 (List.mem_cons_self a0 t))
          (by decide)
    have span1 := @takeWhile_dropWhile_append String
      (fun l => startsWithChar l '-') (l0 :: rem0) (add ++ rest) hd hblock
    have span2 := @takeWhile_dropWhile_append String
      (fun l => startsWithChar l '+') add rest ha hrest
    rw [List.cons_append]
    rw [processLines.eq_def]
    simp only [List.cons_append] at span1
    simp [hnone, hn, hd0, span1.1, span1.2, span2.1, span2.2]

theorem processLines_addedRun (n : Nat) (hn : n ≠ 0) (add rest : List String)
    (hne : add ≠ [])
    (ha : ∀ l ∈ add, startsWithChar l '+' = true)
    (hrest : ∀ x xs, rest = x :: xs → startsWithChar x '+' = false) :
    processLines n (add ++ rest) =
      { type := LineChangeType.added, startLine := n,
        endLine := n + add.length - 1 } ::
        processLines (n + add.length) rest := by
  match add, hne with
  | a0 :: add0, _ =>
    have ha0 : startsWithChar a0 '+' = true := ha a0 (List.mem_cons_self a0 add0)
    have hnone := parseHunkHeader_eq_none ha0 (by decide)
    have hdash := startsWithChar_ne ha0 (show ('+' : Char) ≠ '-' by decide)
    have span := @takeWhile_dropWhile_append String
      (fun l => startsWithChar l '+') (a0 :: add0) rest ha hrest
    rw [List.cons_append]
    rw [processLines.eq_def]
    simp only [List.cons_append] at span
    simp [hnone, hn, hdash, ha0, span.1, span.2]

theorem processLines_skip_all (body rest : List String)
    (h : ∀ l ∈ body, parseHunkHeader l = none) :
    processLines 0 (body ++ rest) = processLines 0 rest := by
  induction body with
  | nil => simp
  | cons a t ih =>
    rw [List.cons_append, processLines_skip (h a (List.mem_cons_self a t))]
    exact ih (fun l hl => h l (List.mem_cons_of_mem a hl))

theorem processLines_context_only (n : Nat) (ctx : List String)
    (h : ∀ l ∈ ctx, startsWithChar l ' ' = true) :
    processLines n ctx = [] := by
  induction ctx generalizing n with
  | nil => exact processLines_nil n
  | cons a t ih =>
    have ha := h a (List.mem_cons_self a t)
    have hnone := parseHunkHeader_eq_none ha (by decide)
    have ht : ∀ l ∈ t, startsWithChar l ' ' = true :=
      fun l hl => h l (List.mem_cons_of_mem a hl)
    by_cases hn : n = 0
    · subst hn
      rw [processLines_skip hnone]
      exact ih 0 ht
    · rw [processLines_space n hn ha]
      exact ih (n + 1) ht

theorem processLines_no_header (lines : List String)
    (h : ∀ l ∈ lines, parseHunkHeader l = none) :
    processLines 0 lines = [] := by
  have hh := processLines_skip_all lines [] h
  rw [processLines_nil] at hh
  simpa using hh

theorem dropWhile_head_not {α : Type} (p : α → Bool) (l : List α) :
    ∀ x xs, l.dropWhile p = x :: xs → p x = false := by
  induction l with
  | nil => intro x xs h; simp at h
  | cons a t ih =>
    intro x xs h
    rw [List.dropWhile_cons] at h
    by_cases hp : p a = true
    · rw [if_pos hp] at h
      exact ih x xs h
    · rw [if_neg hp] at h
      have hax : a = x := by simpa using congrArg (fun l => l.head?) h
      subst hax
      simpa using hp

/-! ## Cursor transport along runs for the headersOrdered instrument -/

theorem headersOrdered_dashRun (n : Nat) (hn : n ≠ 0) (rem tail : List String)
    (hd : ∀ l ∈ rem, startsWithChar l '-' = true) :
    headersOrdered n (rem ++ tail) = headersOrdered n tail := by
  induction rem with
  | nil => rfl
  | cons a t ih =>
    have ha := hd a (List.mem_cons_self a t)
    have hnone := parseHunkHeader_eq_none ha (by decide)
    have hplus := @startsWithChar_ne a '-' '+' ha (by decide)
    have hsp := @startsWithChar_ne a '-' ' ' ha (by decide)
    rw [List.cons_append]
    rw [headersOrdered]
    simp only [hnone, hn, hplus, hsp, if_neg hn, if_false]
    simp only [Bool.false_eq_true, if_false]
    exact ih (fun l hl => hd l (List.mem_cons_of_mem a hl))

theorem headersOrdered_plusRun (n : Nat) (hn : n ≠ 0) (add tail : List String)
    (ha : ∀ l ∈ add, startsWithChar l '+' = true) :
    headersOrdered n (add ++ tail) = headersOrdered (n + add.length) tail := by
  induction add generalizing n with
  | nil => simp
  | cons a t ih =>
    have ha0 := ha a (List.mem_cons_self a t)
    have hnone := parseHunkHeader_eq_none ha0 (by decide)
    rw [List.cons_append]
    rw [headersOrdered]
    simp only [hnone, if_neg hn, ha0, if_true]
    rw [ih (n + 1) (by omega) (fun l hl => ha l (List.mem_cons_of_mem a hl))]
    congr 1
    simp [List.length_cons]
    omega

/-! ## Concrete evaluations of the classifier -/

theorem eval_equalLengthEdit :
    parseUnifiedDiff "@@ -5,2 +5,2 @@\n-a\n-b\n+c\n+d" =
      [{ type := LineChangeType.modified, startLine := 5, endLine := 6 }] := by
  unfold parseUnifiedDiff
  rw [show splitNl "@@ -5,2 +5,2 @@\n-a\n-b\n+c\n+d" =
      "@@ -5,2 +5,2 @@" :: (["-a", "-b"] ++ ["+c", "+d"] ++ []) from rfl]
  rw [processLines_header (show parseHunkHeader "@@ -5,2 +5,2 @@" = some 5 from rfl)]
  rw [processLines_removedRun 5 (by decide) ["-a", "-b"] ["+c", "+d"] []
    (by decide) (by decide) (by decide)
    (fun h => absurd h (by decide)) (fun x xs h => absurd h (by simp))]
  norm_num [processLines_nil]

theorem eval_pureDeletion :
    parseUnifiedDiff "@@ -5,3 +5,0 @@\n-a\n-b\n-c" =
      [{ type := LineChangeType.deleted, startLine := 5, endLine := 5 }] := by
  unfold parseUnifiedDiff
  rw [show splitNl "@@ -5,3 +5,0 @@\n-a\n-b\n-c" =
      "@@ -5,3 +5,0 @@" :: (["-a", "-b", "-c"] ++ [] ++ []) from rfl]
  rw [processLines_header (show parseHunkHeader "@@ -5,3 +5,0 @@" = some 5 from rfl)]
  rw [processLines_removedRun 5 (by decide) ["-a", "-b", "-c"] [] []
    (by decide) (by decide) (by decide)
    (fun _ x xs h => absurd h (by simp)) (fun x xs h => absurd h (by simp))]
  norm_num [processLines_nil]

theorem eval_pureAddition :
    parseUnifiedDiff "@@ -5,0 +5,3 @@\n+a\n+b\n+c" =
      [{ type := LineChangeType.added, startLine := 5, endLine := 7 }] := by
  unfold parseUnifiedDiff
  rw [show splitNl "@@ -5,0 +5,3 @@\n+a\n+b\n+c" =
      "@@ -5,0 +5,3 @@" :: (["+a", "+b", "+c"] ++ []) from rfl]
  rw [processLines_header (show parseHunkHeader "@@ -5,0 +5,3 @@" = some 5 from rfl)]
  rw [processLines_addedRun 5 (by decide) ["+a", "+b", "+c"] []
    (by decide) (by decide) (fun x xs h => absurd h (by simp))]
  norm_num [processLines_nil]

theorem eval_descendingHunks :
    parseUnifiedDiff "@@ -10,1 +10,1 @@\n+x\n@@ -2,1 +2,1 @@\n+y" =
      [{ type := LineChangeType.added, startLine := 10, endLine := 10 },
       { type := LineChangeType.added, startLine := 2, endLine := 2 }] := by
  unfold parseUnifiedDiff
  rw [show splitNl "@@ -10,1 +10,1 @@\n+x\n@@ -2,1 +2,1 @@\n+y" =
      "@@ -10,1 +10,1 @@" :: (["+x"] ++ ["@@ -2,1 +2,1 @@", "+y"]) from rfl]
  rw [processLines_header (show parseHunkHeader "@@ -10,1 +10,1 @@" = some 10 from rfl)]
  rw [processLines_addedRun 10 (by decide) ["+x"] ["@@ -2,1 +2,1 @@", "+y"]
    (by decide) (by decide)
    (fun x xs h => by
      have hx : x = "@@ -2,1 +2,1 @@" := by
        simpa using congrArg (fun l => l.head?) h.symm
      rw [hx]; decide)]
  rw [processLines_header (show parseHunkHeader "@@ -2,1 +2,1 @@" = some 2 from rfl)]
  rw [show ["+y"] = ["+y"] ++ ([] : List String) from rfl]
  rw [processLines_addedRun 2 (by decide) ["+y"] []
    (by decide) (by decide) (fun x xs h => absurd h (by simp))]
  norm_num [processLines_nil]

theorem eval_ascendingHunks :
    parseUnifiedDiff "@@ -1,1 +1,1 @@\n-a\n+b\n@@ -5,1 +5,1 @@\n-c\n+d" =
      [{ type := LineChangeType.modified, startLine := 1, endLine := 1 },
       { type := LineChangeType.modified, startLine := 5, endLine := 5 }] := by
  unfold parseUnifiedDiff
  rw [show splitNl "@@ -1,1 +1,1 @@\n-a\n+b\n@@ -5,1 +5,1 @@\n-c\n+d" =
      "@@ -1,1 +1,1 @@" :: (["-a"] ++ ["+b"] ++ ["@@ -5,1 +5,1 @@", "-c", "+d"])
      from rfl]
  rw [processLines_header (show parseHunkHeader "@@ -1,1 +1,1 @@" = some 1 from rfl)]
  rw [processLines_removedRun 1 (by decide) ["-a"] ["+b"] ["@@ -5,1 +5,1 @@", "-c", "+d"]
    (by decide) (by decide) (by decide)
    (fun h => absurd h (by decide))
    (fun x xs h => by
      have hx : x = "@@ -5,1 +5,1 @@" := by
        simpa using congrArg (fun l => l.head?) h.symm
      rw [hx]; decide)]
  rw [processLines_header (show parseHunkHeader "@@ -5,1 +5,1 @@" = some 5 from rfl)]
  rw [show ["-c", "+d"] = ["-c"] ++ ["+d"] ++ ([] : List String) from rfl]
  rw [processLines_removedRun 5 (by decide) ["-c"] ["+d"] []
    (by decide) (by decide) (by decide)
    (fun h => absurd h (by decide)) (fun x xs h => absurd h (by simp))]
  norm_num [processLines_nil]

theorem eval_zeroStartHunk :
    parseUnifiedDiff "@@ -1,3 +0,0 @@\n-a\n-b\n-c" = [] := by
  unfold parseUnifiedDiff
  rw [show splitNl "@@ -1,3 +0,0 @@\n-a\n-b\n-c" =
      "@@ -1,3 +0,0 @@" :: ["-a", "-b", "-c"] from rfl]
  rw [processLines_header (show parseHunkHeader "@@ -1,3 +0,0 @@" = some 0 from rfl)]
  exact processLines_no_header _ (by decide)

theorem eval_twoFileConcat :
    parseUnifiedDiff
      "@@ -1,1 +1,1 @@\n-a\n+b\ndiff --git a/f2 b/f2\nindex 1..2 100644\n--- a/f2\n+++ b/f2\n@@ -1,1 +1,1 @@\n-c\n+d" =
      [{ type := LineChangeType.modified, startLine := 1, endLine := 1 },
       { type := LineChangeType.modified, startLine := 2, endLine := 2 },
       { type := LineChangeType.modified, startLine := 1, endLine := 1 }] := by
  unfold parseUnifiedDiff
  rw [show splitNl
      "@@ -1,1 +1,1 @@\n-a\n+b\ndiff --git a/f2 b/f2\nindex 1..2 100644\n--- a/f2\n+++ b/f2\n@@ -1,1 +1,1 @@\n-c\n+d" =
      "@@ -1,1 +1,1 @@" :: (["-a"] ++ ["+b"] ++
        ["diff --git a/f2 b/f2", "index 1..2 100644", "--- a/f2", "+++ b/f2",
         "@@ -1,1 +1,1 @@", "-c", "+d"]) from rfl]
  rw [processLines_header (show parseHunkHeader "@@ -1,1 +1,1 @@" = some 1 from rfl)]
  rw [processLines_removedRun 1 (by decide) ["-a"] ["+b"] _
    (by decide) (by decide) (by decide)
    (fun h => absurd h (by decide))
    (fun x xs h => by
      have hx : x = "diff --git a/f2 b/f2" := by
        simpa using congrArg (fun l => l.head?) h.symm
      rw [hx]; decide)]
  norm_num
  rw [processLines_other 2 (by decide) (show parseHunkHeader "diff --git a/f2 b/f2" = none from rfl)
    (by decide) (by decide) (by decide)]
  rw [processLines_other 2 (by decide) (show parseHunkHeader "index 1..2 100644" = none from rfl)
    (by decide) (by decide) (by decide)]
  rw [show ["--- a/f2", "+++ b/f2", "@@ -1,1 +1,1 @@", "-c", "+d"] =
      ["--- a/f2"] ++ ["+++ b/f2"] ++ ["@@ -1,1 +1,1 @@", "-c", "+d"] from rfl]
  rw [processLines_removedRun 2 (by decide) ["--- a/f2"] ["+++ b/f2"] _
    (by decide) (by decide) (by decide)
    (fun h => absurd h (by decide))
    (fun x xs h => by
      have hx : x = "@@ -1,1 +1,1 @@" := by
        simpa using congrArg (fun l => l.head?) h.symm
      rw [hx]; decide)]
  rw [processLines_header (show parseHunkHeader "@@ -1,1 +1,1 @@" = some 1 from rfl)]
  rw [show ["-c", "+d"] = ["-c"] ++ ["+d"] ++ ([] : List String) from rfl]
  rw [processLines_removedRun 1 (by decide) ["-c"] ["+d"] []
    (by decide) (by decide) (by decide)
    (fun h => absurd h (by decide)) (fun x xs h => absurd h (by simp))]
  norm_num [processLines_nil]

/-! ## Monotonicity of emitted start lines -/

theorem pairwise_le_append (xs ys : List Nat) (m : Nat)
    (hx : List.Pairwise (· ≤ ·) xs) (hy : List.Pairwise (· ≤ ·) ys)
    (hxm : ∀ a ∈ xs, a ≤ m) (hym : ∀ b ∈ ys, m ≤ b) :
    List.Pairwise (· ≤ ·) (xs ++ ys) := by
  rw [List.pairwise_append]
  exact ⟨hx, hy, fun a ha b hb => le_trans (hxm a ha) (hym b hb)⟩

theorem runRecords_pairwise (n R A : Nat) (recs tail : List LineChange)
    (hrecs : recs = (if R > 0 ∧ A > 0 then
        { type := LineChangeType.modified, startLine := n,
          endLine := n + min R A - 1 } ::
          (if A > min R A then
            [{ type := LineChangeType.added, startLine := n + min R A,
               endLine := n + A - 1 }]
          else if R > min R A then
            [{ type := LineChangeType.deleted, startLine := n + min R A,
               endLine := n + min R A }]
          else [])
      else if A > 0 then
        [{ type := LineChangeType.added, startLine := n, endLine := n + A - 1 }]
      else
        [{ type := LineChangeType.deleted, startLine := n, endLine := n }]))
    (htp : List.Pairwise (· ≤ ·) (tail.map LineChange.startLine))
    (htb : ∀ r ∈ tail, n + A ≤ r.startLine) :
    List.Pairwise (· ≤ ·) ((recs ++ tail).map LineChange.startLine) ∧
      ∀ r ∈ recs ++ tail, n ≤ r.startLine := by
  have hmain : List.Pairwise (· ≤ ·) (recs.map LineChange.startLine) ∧
      ∀ r ∈ recs, n ≤ r.startLine ∧ r.startLine ≤ n + A := by
    subst hrecs
    split_ifs with h1 h2 h3
    · refine ⟨?_, ?_⟩
      · simp [List.pairwise_cons]
      · intro r hr
        simp only [List.mem_cons, List.not_mem_nil, or_false] at hr
        rcases hr with hr | hr <;> subst hr <;> simp
    · refine ⟨?_, ?_⟩
      · simp [List.pairwise_cons]
      · intro r hr
        simp only [List.mem_cons, List.not_mem_nil, or_false] at hr
        rcases hr with hr | hr <;> subst hr <;> simp
    · refine ⟨?_, ?_⟩
      · simp
      · intro r hr
        simp only [List.mem_cons, List.not_mem_nil, or_false] at hr
        subst hr
        refine ⟨le_refl n, ?_⟩
        simp
    · refine ⟨?_, ?_⟩
      · simp
      · intro r hr
        simp only [List.mem_cons, List.not_mem_nil, or_false] at hr
        subst hr
        refine ⟨le_refl n, ?_⟩
        simp
    · refine ⟨?_, ?_⟩
      · simp
      · intro r hr
        simp only [List.mem_cons, List.not_mem_nil, or_false] at hr
        subst hr
        refine ⟨le_refl n, ?_⟩
        simp
  refine ⟨?_, ?_⟩
  · rw [List.map_append]
    refine pairwise_le_append _ _ (n + A) hmain.1 htp ?_ ?_
    · intro a ha
      obtain ⟨r, hr, hrr⟩ := List.mem_map.mp ha
      subst hrr
      exact (hmain.2 r hr).2
    · intro b hb
      obtain ⟨r, hr, hrr⟩ := List.mem_map.mp hb
      subst hrr
      exact htb r hr
  · intro r hr
    rcases List.mem_append.mp hr with h | h
    · exact (hmain.2 r h).1
    · exact le_trans (Nat.le_add_right n A) (htb r h)

theorem dropWhile_of_takeWhile_nil {α : Type} (p : α → Bool) (l : List α)
    (h : l.takeWhile p = []) : l.dropWhile p = l := by
  cases l with
  | nil => rfl
  | cons a t =>
    rw [List.takeWhile_cons] at h
    by_cases hp : p a = true
    · rw [if_pos hp] at h; simp at h
    · rw [List.dropWhile_cons, if_neg hp]

theorem processLines_dash_case (f : Nat)
    (ih : ∀ (n : Nat) (lines : List String), lines.length ≤ f →
      headersOrdered n lines = true →
      List.Pairwise (· ≤ ·) ((processLines n lines).map LineChange.startLine) ∧
      ∀ r ∈ processLines n lines, n ≤ r.startLine)
    (n : Nat) (hn : n ≠ 0) (line : String) (rest : List String)
    (hlen2 : rest.length ≤ f)
    (hdash : startsWithChar line '-' = true)
    (hmono : headersOrdered n (line :: rest) = true) :
    List.Pairwise (· ≤ ·) ((processLines n (line :: rest)).map LineChange.startLine) ∧
    ∀ r ∈ processLines n (line :: rest), n ≤ r.startLine := by
  obtain ⟨rem, hrem⟩ : ∃ rem,
      (line :: rest).takeWhile (fun l => startsWithChar l '-') = rem := ⟨_, rfl⟩
  obtain ⟨rest1, hrest1⟩ : ∃ rest1,
      (line :: rest).dropWhile (fun l => startsWithChar l '-') = rest1 := ⟨_, rfl⟩
  obtain ⟨add, hadd⟩ : ∃ add,
      rest1.takeWhile (fun l => startsWithChar l '+') = add := ⟨_, rfl⟩
  obtain ⟨rest2, hrest2⟩ : ∃ rest2,
      rest1.dropWhile (fun l => startsWithChar l '+') = rest2 := ⟨_, rfl⟩
  have hsplit1 : line :: rest = rem ++ rest1 := by
    rw [← hrem, ← hrest1, List.takeWhile_append_dropWhile]
  have hsplit2 : rest1 = add ++ rest2 := by
    rw [← hadd, ← hrest2, List.takeWhile_append_dropWhile]
  have hremne : rem ≠ [] := by
    rw [← hrem, List.takeWhile_cons, if_pos hdash]
    simp
  have hdall : ∀ l ∈ rem, startsWithChar l '-' = true := by
    intro l hl
    rw [← hrem] at hl
    exact @List.mem_takeWhile_imp String (fun s => startsWithChar s '-')
      (line :: rest) l hl
  have haall : ∀ l ∈ add, startsWithChar l '+' = true := by
    intro l hl
    rw [← hadd] at hl
    exact @List.mem_takeWhile_imp String (fun s => startsWithChar s '+')
      rest1 l hl
  have hrest2plus : ∀ x xs, rest2 = x :: xs → startsWithChar x '+' = false := by
    intro x xs hx
    refine dropWhile_head_not (fun l => startsWithChar l '+') rest1 x xs ?_
    rw [hrest2]
    exact hx
  have hnodash : add = [] → ∀ x xs, rest2 = x :: xs → startsWithChar x '-' = false := by
    intro haddnil x xs hx
    have hre : rest2 = rest1 := by
      rw [← hrest2]
      exact dropWhile_of_takeWhile_nil _ _ (by rw [hadd, haddnil])
    refine dropWhile_head_not (fun l => startsWithChar l '-') (line :: rest) x xs ?_
    rw [hrest1, ← hre]
    exact hx
  have hlen_rest1 : rest1.length ≤ rest.length := by
    rw [← hrest1, List.dropWhile_cons, if_pos hdash]
    exact (List.dropWhile_sublist _).length_le
  have hlen_rest2 : rest2.length ≤ rest1.length := by
    rw [← hrest2]
    exact (List.dropWhile_sublist _).length_le
  have hsplit : line :: rest = rem ++ add ++ rest2 := by
    rw [hsplit1, hsplit2, List.append_assoc]
  rw [hsplit] at hmono ⊢
  rw [processLines_removedRun n hn rem add rest2 hremne hdall haall hnodash hrest2plus]
  rw [List.append_assoc] at hmono
  rw [headersOrdered_dashRun n hn rem (add ++ rest2) hdall] at hmono
  rw [headersOrdered_plusRun n hn add rest2 haall] at hmono
  have htail := ih (n + add.length) rest2 (by omega) hmono
  exact runRecords_pairwise n rem.length add.length _ _ rfl htail.1 htail.2

theorem processLines_plus_case (f : Nat)
    (ih : ∀ (n : Nat) (lines : List String), lines.length ≤ f →
      headersOrdered n lines = true →
      List.Pairwise (· ≤ ·) ((processLines n lines).map LineChange.startLine) ∧
      ∀ r ∈ processLines n lines, n ≤ r.startLine)
    (n : Nat) (hn : n ≠ 0) (line : String) (rest : List String)
    (hlen2 : rest.length ≤ f)
    (hplus : startsWithChar line '+' = true)
    (hmono : headersOrdered n (line :: rest) = true) :
    List.Pairwise (· ≤ ·) ((processLines n (line :: rest)).map LineChange.startLine) ∧
    ∀ r ∈ processLines n (line :: rest), n ≤ r.startLine := by
  obtain ⟨add, hadd⟩ : ∃ add,
      (line :: rest).takeWhile (fun l => startsWithChar l '+') = add := ⟨_, rfl⟩
  obtain ⟨rest1, hrest1⟩ : ∃ rest1,
      (line :: rest).dropWhile (fun l => startsWithChar l '+') = rest1 := ⟨_, rfl⟩
  have hsplit : line :: rest = add ++ rest1 := by
    rw [← hadd, ← hrest1, List.takeWhile_append_dropWhile]
  have haddne : add ≠ [] := by
    rw [← hadd, List.takeWhile_cons, if_pos hplus]
    simp
  have haall : ∀ l ∈ add, startsWithChar l '+' = true := by
    intro l hl
    rw [← hadd] at hl
    exact @List.mem_takeWhile_imp String (fun s => startsWithChar s '+')
      (line :: rest) l hl
  have hrest1plus : ∀ x xs, rest1 = x :: xs → startsWithChar x '+' = false := by
    intro x xs hx
    refine dropWhile_head_not (fun l => startsWithChar l '+') (line :: rest) x xs ?_
    rw [hrest1]
    exact hx
  have hlen_rest1 : rest1.length ≤ rest.length := by
    rw [← hrest1, List.dropWhile_cons, if_pos hplus]
    exact (List.dropWhile_sublist _).length_le
  rw [hsplit] at hmono ⊢
  rw [processLines_addedRun n hn add rest1 haddne haall hrest1plus]
  rw [headersOrdered_plusRun n hn add rest1 haall] at hmono
  have htail := ih (n + add.length) rest1 (by omega) hmono
  refine ⟨?_, ?_⟩
  · simp only [List.map_cons]
    refine List.Pairwise.cons ?_ htail.1
    intro b hb
    obtain ⟨r, hr, hrr⟩ := List.mem_map.mp hb
    subst hrr
    exact le_trans (Nat.le_add_right n add.length) (htail.2 r hr)
  · intro r hr
    rcases List.mem_cons.mp hr with h | h
    · subst h
      exact le_refl n
    · exact le_trans (Nat.le_add_right n add.length) (htail.2 r h)

theorem processLines_pairwise_aux :
    ∀ (fuel n : Nat) (lines : List String), lines.length ≤ fuel →
      headersOrdered n lines = true →
      List.Pairwise (· ≤ ·) ((processLines n lines).map LineChange.startLine) ∧
      ∀ r ∈ processLines n lines, n ≤ r.startLine := by
  intro fuel
  induction fuel with
  | zero =>
    intro n lines hlen _
    have hnil : lines = [] := List.eq_nil_of_length_eq_zero (Nat.le_zero.mp hlen)
    subst hnil
    simp [processLines_nil]
  | succ f ih =>
    intro n lines hlen hmono
    cases lines with
    | nil => simp [processLines_nil]
    | cons line rest =>
      have hlen2 : rest.length ≤ f := by
        simp only [List.length_cons] at hlen
        omega
      cases hhd : parseHunkHeader line with
      | some m =>
        rw [processLines_header hhd]
        rw [headersOrdered] at hmono
        simp only [hhd, Bool.and_eq_true, decide_eq_true_eq] at hmono
        obtain ⟨hnm, hmono2⟩ := hmono
        have h2 := ih m rest hlen2 hmono2
        exact ⟨h2.1, fun r hr => le_trans hnm (h2.2 r hr)⟩
      | none =>
        by_cases hn : n = 0
        · subst hn
          rw [processLines_skip hhd]
          rw [headersOrdered] at hmono
          simp only [hhd, if_pos rfl] at hmono
          have h2 := ih 0 rest hlen2 hmono
          exact ⟨h2.1, fun r hr => Nat.zero_le _⟩
        · by_cases hdash : startsWithChar line '-' = true
          · exact processLines_dash_case f ih n hn line rest hlen2 hdash hmono
          · by_cases hplus : startsWithChar line '+' = true
            · exact processLines_plus_case f ih n hn line rest hlen2 hplus hmono
            · have hdashF : startsWithChar line '-' = false := by
                simpa using hdash
              have hplusF : startsWithChar line '+' = false := by
                simpa using hplus
              by_cases hsp : startsWithChar line ' ' = true
              · rw [processLines_space n hn hsp]
                rw [headersOrdered] at hmono
                simp only [hhd, if_neg hn, hplusF, hsp, if_true,
                  Bool.false_eq_true, if_false] at hmono
                have h2 := ih (n + 1) rest hlen2 hmono
                exact ⟨h2.1, fun r hr => le_trans (Nat.le_succ n) (h2.2 r hr)⟩
              · have hspF : startsWithChar line ' ' = false := by
                  simpa using hsp
                rw [processLines_other n hn hhd hdashF hplusF hspF]
                rw [headersOrdered] at hmono
                simp only [hhd, if_neg hn, hplusF, hspF,
                  Bool.false_eq_true, if_false] at hmono
                exact ih n rest hlen2 hmono

theorem cons_eq_head {α : Type} {y x : α} {ys xs : List α} (h : y :: ys = x :: xs) :
    x = y := by
  injection h with h1 _
  exact h1.symm

/-! ## Claim theorems -/

/-- C1: inside a hunk (cursor positive), a run of R removed lines directly
followed by A added lines (next line, if any, not an added line) emits a
Modified record covering the min(R,A) new-file lines starting at the cursor;
then, if A exceeds R, an Added record covering lines cursor+min(R,A) to
cursor+A-1; else, if R exceeds A, a single Deleted record with startLine =
endLine = cursor+min(R,A); and scanning continues with the cursor advanced by
exactly A.  In particular, the diff with header starting at new line 5 and two
removed lines followed by two added lines yields exactly one record,
Modified 5-6. -/
theorem pairedRun_classification :
    (∀ (newLine : Nat) (rem add rest : List String),
      0 < newLine → rem ≠ [] → add ≠ [] →
      (∀ l ∈ rem, startsWithChar l '-' = true) →
      (∀ l ∈ add, startsWithChar l '+' = true) →
      (∀ x xs, rest = x :: xs → startsWithChar x '+' = false) →
      processLines newLine (rem ++ add ++ rest) =
        ({ type := LineChangeType.modified, startLine := newLine,
           endLine := newLine + min rem.length add.length - 1 } ::
          (if rem.length < add.length then
            [{ type := LineChangeType.added,
               startLine := newLine + min rem.length add.length,
               endLine := newLine + add.length - 1 }]
          else if add.length < rem.length then
            [{ type := LineChangeType.deleted,
               startLine := newLine + min rem.length add.length,
               endLine := newLine + min rem.length add.length }]
          else [])) ++ processLines (newLine + add.length) rest) ∧
    parseUnifiedDiff "@@ -5,2 +5,2 @@\n-a\n-b\n+c\n+d" =
      [{ type := LineChangeType.modified, startLine := 5, endLine := 6 }] := by
  refine ⟨?_, eval_equalLengthEdit⟩
  intro newLine rem add rest hpos hremne haddne hd ha hrest
  rw [processLines_removedRun newLine (by omega) rem add rest hremne hd ha
    (fun h => absurd h haddne) hrest]
  have hR : 0 < rem.length := List.length_pos.mpr hremne
  have hA : 0 < add.length := List.length_pos.mpr haddne
  rw [if_pos ⟨hR, hA⟩]
  congr 1
  congr 1
  split_ifs <;> first | rfl | omega

/-- Witness for C1 at a concrete removed-surplus run: three removed lines
followed by two added lines at cursor 5 give Modified 5-6 and a zero-width
Deleted marker at 7. -/
theorem pairedRun_classification_witness :
    processLines 5 (["-a", "-b", "-x"] ++ ["+c", "+d"] ++ []) =
      [{ type := LineChangeType.modified, startLine := 5, endLine := 6 },
       { type := LineChangeType.deleted, startLine := 7, endLine := 7 }] := by
  have h := pairedRun_classification.1 5 ["-a", "-b", "-x"] ["+c", "+d"] []
    (by decide) (by decide) (by decide) (by decide) (by decide)
    (fun x xs h => absurd h (by simp))
  rw [h]
  norm_num [processLines_nil]

/-- C2: inside a hunk, a run of removed lines not directly followed by any
added line emits exactly one Deleted record with startLine = endLine = the
current cursor, and scanning continues with the cursor unchanged.  In
particular, header `@@ -5,3 +5,0 @@` followed by three removed lines yields
exactly one zero-width Deleted marker at line 5. -/
theorem pureDeletionRun_classification :
    (∀ (newLine : Nat) (rem rest : List String),
      0 < newLine → rem ≠ [] →
      (∀ l ∈ rem, startsWithChar l '-' = true) →
      (∀ x xs, rest = x :: xs → startsWithChar x '-' = false) →
      (∀ x xs, rest = x :: xs → startsWithChar x '+' = false) →
      processLines newLine (rem ++ rest) =
        { type := LineChangeType.deleted, startLine := newLine,
          endLine := newLine } :: processLines newLine rest) ∧
    parseUnifiedDiff "@@ -5,3 +5,0 @@\n-a\n-b\n-c" =
      [{ type := LineChangeType.deleted, startLine := 5, endLine := 5 }] := by
  refine ⟨?_, eval_pureDeletion⟩
  intro newLine rem rest hpos hremne hd hnodash hnoplus
  have h := processLines_removedRun newLine (by omega) rem [] rest hremne hd
    (by simp) (fun _ => hnodash) hnoplus
  simp only [List.append_nil, List.length_nil, Nat.add_zero] at h
  rw [h]
  norm_num

/-- Witness for C2: a pure removed run followed by a context line. -/
theorem pureDeletionRun_classification_witness :
    processLines 5 (["-a", "-b", "-c"] ++ [" ctx"]) =
      { type := LineChangeType.deleted, startLine := 5, endLine := 5 } ::
        processLines 5 [" ctx"] :=
  pureDeletionRun_classification.1 5 ["-a", "-b", "-c"] [" ctx"]
    (by decide) (by decide) (by decide)
    (fun x xs h => by rw [cons_eq_head h]; decide)
    (fun x xs h => by rw [cons_eq_head h]; decide)

/-- C3: inside a hunk, a run of A added lines not preceded by a removed line
emits exactly one Added record spanning cursor to cursor+A-1 and advances the
cursor by A.  In particular, header `@@ -5,0 +5,3 @@` with three added lines
yields exactly one record, Added 5-7. -/
theorem standaloneAddedRun_classification :
    (∀ (newLine : Nat) (add rest : List String),
      0 < newLine → add ≠ [] →
      (∀ l ∈ add, startsWithChar l '+' = true) →
      (∀ x xs, rest = x :: xs → startsWithChar x '+' = false) →
      processLines newLine (add ++ rest) =
        { type := LineChangeType.added, startLine := newLine,
          endLine := newLine + add.length - 1 } ::
          processLines (newLine + add.length) rest) ∧
    parseUnifiedDiff "@@ -5,0 +5,3 @@\n+a\n+b\n+c" =
      [{ type := LineChangeType.added, startLine := 5, endLine := 7 }] := by
  refine ⟨?_, eval_pureAddition⟩
  intro newLine add rest hpos haddne ha hrest
  exact processLines_addedRun newLine (by omega) add rest haddne ha hrest

/-- Witness for C3: a standalone added run followed by a context line. -/
theorem standaloneAddedRun_classification_witness :
    processLines 4 (["+a", "+b"] ++ [" ctx"]) =
      { type := LineChangeType.added, startLine := 4, endLine := 5 } ::
        processLines 6 [" ctx"] := by
  have h := standaloneAddedRun_classification.1 4 ["+a", "+b"] [" ctx"]
    (by decide) (by decide) (by decide)
    (fun x xs h => by rw [cons_eq_head h]; decide)
  rw [h]
  norm_num

/-- C4 counterexample: on a diff whose second hunk header carries a smaller
new-file start than the cursor reached by the first hunk, the emitted
startLine sequence (10 then 2) is not non-decreasing, refuting the claim for
arbitrary diff text. -/
theorem startLines_monotone_counterexample :
    ¬ List.Pairwise (· ≤ ·)
      ((parseUnifiedDiff "@@ -10,1 +10,1 @@\n+x\n@@ -2,1 +2,1 @@\n+y").map
        LineChange.startLine) := by
  rw [eval_descendingHunks]
  decide

/-- C4, amended: for any diff text in which every hunk header parsed during
the scan carries a new-file start at least the cursor value reached at that
point (`headersOrdered` — true of all well-formed unified diffs, whose hunks
appear in ascending new-file order), the sequence of startLine values across
the emitted records, in emission order, is non-decreasing. -/
theorem startLines_monotone_of_headersOrdered (input : String)
    (h : headersOrdered 0 (splitNl input) = true) :
    List.Pairwise (· ≤ ·)
      ((parseUnifiedDiff input).map LineChange.startLine) :=
  (processLines_pairwise_aux (splitNl input).length 0 (splitNl input)
    (le_refl _) h).1

/-- Witness for the amended C4 on a two-hunk diff in ascending order. -/
theorem startLines_monotone_of_headersOrdered_witness :
    headersOrdered 0
      (splitNl "@@ -1,1 +1,1 @@\n-a\n+b\n@@ -5,1 +5,1 @@\n-c\n+d") = true ∧
    List.Pairwise (· ≤ ·)
      ((parseUnifiedDiff "@@ -1,1 +1,1 @@\n-a\n+b\n@@ -5,1 +5,1 @@\n-c\n+d").map
        LineChange.startLine) :=
  ⟨by decide,
   startLines_monotone_of_headersOrdered
     "@@ -1,1 +1,1 @@\n-a\n+b\n@@ -5,1 +5,1 @@\n-c\n+d" (by decide)⟩

/-- C5 counterexample: calling setBase twice in succession with a value equal
to the currently held base returns false both times (first call is not true),
refuting the claim's final sentence for arbitrary values. -/
theorem setMergeBase_twice_counterexample :
    ¬ ((setMergeBase { mergeBase := "abc", cache := fun _ => none } "abc").1 = true ∧
       (setMergeBase
         (setMergeBase { mergeBase := "abc", cache := fun _ => none } "abc").2
         "abc").1 = false) := by
  intro h
  have h1 := h.1
  rw [show (setMergeBase { mergeBase := "abc", cache := fun _ => none } "abc").1 =
      false from rfl] at h1
  exact Bool.false_ne_true h1

/-- C5, amended: setBase(newBase) returns true, replaces the held base and
clears every cached entry when newBase differs from the held base, and
returns false leaving the state untouched when it is equal; consequently,
for any value B **different from the currently held base**, calling setBase(B)
twice in succession returns true then false. -/
theorem setMergeBase_spec :
    (∀ (s : GutterState) (b : String), b ≠ s.mergeBase →
      setMergeBase s b = (true, { mergeBase := b, cache := fun _ => none })) ∧
    (∀ (s : GutterState) (b : String), b = s.mergeBase →
      setMergeBase s b = (false, s)) ∧
    (∀ (s : GutterState) (b : String), b ≠ s.mergeBase →
      (setMergeBase s b).1 = true ∧
      (setMergeBase (setMergeBase s b).2 b).1 = false) := by
  refine ⟨?_, ?_, ?_⟩
  · intro s b hb
    unfold setMergeBase
    rw [if_pos (Ne.symm hb)]
  · intro s b hb
    unfold setMergeBase
    rw [if_neg (fun hc => hc hb.symm)]
  · intro s b hb
    unfold setMergeBase
    rw [if_pos (Ne.symm hb)]
    refine ⟨rfl, ?_⟩
    rw [if_neg (fun hc => hc rfl)]

/-- Witness for the amended C5 at a fresh provider and base "B". -/
theorem setMergeBase_spec_witness :
    setMergeBase { mergeBase := "", cache := fun _ => none } "B" =
      (true, { mergeBase := "B", cache := fun _ => none }) ∧
    (setMergeBase
      (setMergeBase { mergeBase := "", cache := fun _ => none } "B").2 "B").1 =
      false :=
  ⟨setMergeBase_spec.1 { mergeBase := "", cache := fun _ => none } "B" (by decide),
   (setMergeBase_spec.2.2 { mergeBase := "", cache := fun _ => none } "B"
     (by decide)).2⟩

/-- C6 (violated by the code): an updateDecorations body that misses the
cache captures the current base "A" and suspends at its await; a
setMergeBase("B") that returns true then clears the cache; when the stale
retrieval resolves, the body resumes and writes the result computed against
"A" into the cleared cache, and a subsequent get serves that stale entry,
whose value differs from what the current base "B" would produce. -/
theorem staleBaseInsertion_trace :
    (setMergeBaseAsync (beginUpdate
      { mergeBase := "A", cache := fun _ => none, pending := [] } "f").2 "B").1 =
        true ∧
    (setMergeBaseAsync (beginUpdate
      { mergeBase := "A", cache := fun _ => none, pending := [] } "f").2
        "B").2.cache "f" = none ∧
    (beginUpdate
      (finishUpdate fetchByBase
        (setMergeBaseAsync (beginUpdate
          { mergeBase := "A", cache := fun _ => none, pending := [] } "f").2
          "B").2 "f" "A").2 "f").1 = some (fetchByBase "A" "f") ∧
    fetchByBase "A" "f" ≠ fetchByBase "B" "f" := by
  refine ⟨rfl, rfl, rfl, by decide⟩

/-- C7: with a nonempty base, a get on a path with a stored entry (including
one holding the empty sequence) returns the stored sequence with zero
retrieval invocations; a get on a missing entry invokes the injected
retrieval exactly once, stores its (classified) result under the path and
returns it; consequently an immediately repeated get performs zero further
retrievals and returns the same value, so between invalidations the
classification for a path is computed at most once. -/
theorem cacheGet_spec :
    (∀ (fetch : String → String → List LineChange) (s : GutterState)
        (path : String) (v : List LineChange),
      s.mergeBase ≠ "" → s.cache path = some v →
      updateDecorations fetch s path = (some v, s, 0)) ∧
    (∀ (fetch : String → String → List LineChange) (s : GutterState)
        (path : String),
      s.mergeBase ≠ "" → s.cache path = none →
      updateDecorations fetch s path =
        (some (fetch s.mergeBase path),
         { s with cache := fun x =>
             if x = path then some (fetch s.mergeBase path) else s.cache x },
         1)) ∧
    (∀ (fetch : String → String → List LineChange) (s : GutterState)
        (path : String),
      s.mergeBase ≠ "" →
      (updateDecorations fetch (updateDecorations fetch s path).2.1 path).2.2 = 0 ∧
      (updateDecorations fetch (updateDecorations fetch s path).2.1 path).1 =
        (updateDecorations fetch s path).1) := by
  refine ⟨?_, ?_, ?_⟩
  · intro fetch s path v hb hc
    unfold updateDecorations
    rw [if_neg hb, hc]
  · intro fetch s path hb hc
    unfold updateDecorations
    rw [if_neg hb, hc]
  · intro fetch s path hb
    cases hc : s.cache path with
    | some v =>
      unfold updateDecorations
      rw [if_neg hb, hc]
      simp only [if_neg hb, hc]
      exact ⟨trivial, trivial⟩
    | none =>
      unfold updateDecorations
      rw [if_neg hb, hc]
      simp [if_neg hb]

/-- Witness for C7: a hit on a stored empty sequence is served with zero
retrievals, and a repeated get after a miss performs no second retrieval and
returns the same value. -/
theorem cacheGet_spec_witness :
    (updateDecorations (fun _ _ => [])
      { mergeBase := "B", cache := fun x => if x = "a" then some [] else none }
      "a" =
      (some [],
       { mergeBase := "B", cache := fun x => if x = "a" then some [] else none },
       0)) ∧
    ((updateDecorations (fun _ _ => [])
        (updateDecorations (fun _ _ => [])
          { mergeBase := "B", cache := fun _ => none } "p").2.1 "p").2.2 = 0 ∧
     (updateDecorations (fun _ _ => [])
        (updateDecorations (fun _ _ => [])
          { mergeBase := "B", cache := fun _ => none } "p").2.1 "p").1 =
       (updateDecorations (fun _ _ => [])
         { mergeBase := "B", cache := fun _ => none } "p").1) :=
  ⟨cacheGet_spec.1 (fun _ _ => [])
    { mergeBase := "B", cache := fun x => if x = "a" then some [] else none }
    "a" [] (by decide) rfl,
   cacheGet_spec.2.2 (fun _ _ => [])
    { mergeBase := "B", cache := fun _ => none } "p" (by decide)⟩

/-- C8: the classifier is a total function (the embedding is a total Lean
function, so termination with no exception holds by construction) returning a
possibly empty sequence; it returns the empty sequence on empty text, on any
input none of whose lines matches the hunk-header pattern, and on a diff
consisting of a header followed only by context lines. -/
theorem classifier_total_empty_cases :
    parseUnifiedDiff "" = [] ∧
    (∀ input : String, (∀ l ∈ splitNl input, parseHunkHeader l = none) →
      parseUnifiedDiff input = []) ∧
    (∀ (hdr : String) (n : Nat) (ctx : List String),
      parseHunkHeader hdr = some n →
      (∀ l ∈ ctx, startsWithChar l ' ' = true) →
      processLines 0 (hdr :: ctx) = []) := by
  refine ⟨?_, ?_, ?_⟩
  · unfold parseUnifiedDiff
    rw [show splitNl "" = [""] from rfl]
    rw [processLines_skip (show parseHunkHeader "" = none from rfl)]
    exact processLines_nil 0
  · intro input h
    exact processLines_no_header (splitNl input) h
  · intro hdr n ctx hhdr hctx
    rw [processLines_header hhdr]
    exact processLines_context_only n ctx hctx

/-- Witness for C8: a header-free text and a header-plus-context diff both
yield the empty sequence. -/
theorem classifier_total_empty_cases_witness :
    parseUnifiedDiff "hello\nworld" = [] ∧
    processLines 0 ["@@ -3,1 +3,2 @@", " a", " b"] = [] :=
  ⟨classifier_total_empty_cases.2.1 "hello\nworld" (by decide),
   classifier_total_empty_cases.2.2 "@@ -3,1 +3,2 @@" 3 [" a", " b"] rfl
     (by decide)⟩

/-- C9: a hunk header carrying new-file start 0 (the form git emits when a
file's whole content is removed) resets the cursor to the before-first-hunk
sentinel, so every non-header line of that hunk's body is skipped and no
record — in particular no zero-width Deleted marker — is emitted for it;
concretely, `@@ -1,3 +0,0 @@` followed by three removed lines yields no
records at all. -/
theorem zeroStartHunk_emits_nothing :
    (∀ (newLine : Nat) (hdr : String) (body rest : List String),
      parseHunkHeader hdr = some 0 →
      (∀ l ∈ body, parseHunkHeader l = none) →
      processLines newLine (hdr :: (body ++ rest)) = processLines 0 rest) ∧
    parseUnifiedDiff "@@ -1,3 +0,0 @@\n-a\n-b\n-c" = [] := by
  refine ⟨?_, eval_zeroStartHunk⟩
  intro newLine hdr body rest hhdr hbody
  rw [processLines_header hhdr]
  exact processLines_skip_all body rest hbody

/-- Witness for C9: a zero-start hunk body of removed lines is skipped and
scanning resumes at the next input line in the sentinel state. -/
theorem zeroStartHunk_emits_nothing_witness :
    processLines 7 ("@@ -1,3 +0,0 @@" :: (["-a", "-b"] ++ ["@@ -4,1 +4,1 @@", "+z"])) =
      processLines 0 ["@@ -4,1 +4,1 @@", "+z"] :=
  zeroStartHunk_emits_nothing.1 7 "@@ -1,3 +0,0 @@" ["-a", "-b"]
    ["@@ -4,1 +4,1 @@", "+z"] rfl (by decide)

/-- C10: once a hunk has set the cursor to a nonzero value the classifier
does not recognize file boundaries: concatenating the diffs of two files, the
second file's `--- a/...` line is consumed as a removed run and the following
`+++ b/...` line as its paired added run, emitting a spurious Modified record
(the middle record below, at line 2) at the cursor position left over from
the first file's hunk, while `diff --git` and `index` lines are merely
ignored. -/
theorem fileBoundary_spurious_modified :
    parseUnifiedDiff
      "@@ -1,1 +1,1 @@\n-a\n+b\ndiff --git a/f2 b/f2\nindex 1..2 100644\n--- a/f2\n+++ b/f2\n@@ -1,1 +1,1 @@\n-c\n+d" =
      [{ type := LineChangeType.modified, startLine := 1, endLine := 1 },
       { type := LineChangeType.modified, startLine := 2, endLine := 2 },
       { type := LineChangeType.modified, startLine := 1, endLine := 1 }] :=
  eval_twoFileConcat
